import Mathlib

/- Verification of the ZenlessZoneZero music visualizer audio pipeline.

   The development shallowly embeds, from the Rust sources:
   - the spectral post-processing chain of src/main.rs and src/dsp/fft.rs
     (band gain compensation, robust percentile normalization, S-curve
     contrast enhancement), with f32 arithmetic modelled over an arbitrary
     linear ordered field (instantiated at the rationals and the reals);
   - the log-spaced band index table construction of
     init_band_indices_cache (src/dsp/fft.rs) and run_fft (src/main.rs),
     with the transcendental frequency computation modelled over the reals;
   - the double-buffered SharedPipe of src/dsp/spectrum.rs, both as a
     sequential state-passing model (lock outcomes made explicit) and as an
     interleaved small-step system with one producer and many consumers. -/

set_option maxHeartbeats 1000000

namespace MusicViz

/-! ## Analyzer arithmetic (src/main.rs lines 200-269, src/dsp/fft.rs lines 111-157) -/

variable {α : Type} [LinearOrderedField α]

/-- Model of f32 clamp: `x.clamp(lo, hi) = min (max x lo) hi`. -/
def fclamp (x lo hi : α) : α := min (max x lo) hi

/-- Translation of s_curve_enhancement (src/main.rs lines 257-269):
    low values `x < 0.1` are compressed to `x * 0.1`, high values `x > 0.9`
    are boosted to `0.9 + (x - 0.9) * 5.0`, the midrange is mapped through
    the quadratic `0.01 + 0.98 * ((x - 0.1) / 0.8)^2`. -/
def s_curve_enhancement (x : α) : α :=
  if x < 1/10 then
    x * (1/10)
  else if 9/10 < x then
    9/10 + (x - 9/10) * 5
  else
    let t := (x - 1/10) / (8/10)
    1/100 + (98/100) * t ^ 2

/-- One iteration of the loop body of apply_band_gain_compensation
    (src/main.rs lines 208-224): the band at index `i` of `n` is attenuated
    below 30% of the index range, boosted above 80%, otherwise unchanged. -/
def gain_one (n i : ℕ) (b : α) : α :=
  let fr : α := (i : α) / (n : α)
  if fr < 3/10 then
    b * (1 - (3/10 - fr) * 2)
  else if 8/10 < fr then
    b * (1 + (fr - 8/10) * (3/2))
  else
    b

/-- The indexed loop of apply_band_gain_compensation, carrying the running
    index `i` and the fixed length `n`. -/
def gain_loop (n i : ℕ) : List α → List α
  | [] => []
  | b :: rest => gain_one n i b :: gain_loop n (i + 1) rest

/-- Translation of apply_band_gain_compensation (src/main.rs lines 208-224,
    identical in src/dsp/fft.rs lines 111-127). -/
def apply_band_gain_compensation (bands : List α) : List α :=
  gain_loop bands.length 0 bands

/-- The 95th percentile index `(len as f32 * 0.95) as usize` of
    improved_normalize_spectrum: f32 multiplication followed by truncation
    towards zero, modelled as the natural floor of the exact product. -/
def percentile_95_idx (len : ℕ) : ℕ := ⌊(len : ℚ) * (95/100)⌋₊

/-- The robust reference value of improved_normalize_spectrum
    (src/main.rs lines 234-239): sort a copy of the bands, index the sorted
    copy at `max (percentile index) 1` (`none` models the out-of-bounds
    panic of the Rust indexing), and floor the result at epsilon `1e-6`. -/
def reference_value (bands : List α) : Option α :=
  let sorted_bands := List.insertionSort (· ≤ ·) bands
  (sorted_bands.get? (max (percentile_95_idx sorted_bands.length) 1)).map
    (fun v => max v (1/1000000))

/-- Translation of improved_normalize_spectrum (src/main.rs lines 232-246,
    identical in src/dsp/fft.rs lines 129-143): divide every band by the
    reference value, clamp to [0, 1], and apply the S-curve enhancement. -/
def improved_normalize_spectrum (bands : List α) : Option (List α) :=
  (reference_value bands).map (fun ref =>
    bands.map (fun b => s_curve_enhancement (fclamp (b / ref) 0 1)))

/-! ## Band index table (src/dsp/fft.rs lines 31-56, src/main.rs lines 154-170) -/

/-- The log-spaced boundary frequency of band `i`:
    `10^(log_min + (log_max - log_min) * (i / band_count))` with
    `log_min = log10 min_freq`, `log_max = log10 max_freq`. -/
noncomputable def band_freq (min_freq max_freq : ℚ) (band_count i : ℕ) : ℝ :=
  let log_min := Real.logb 10 (min_freq : ℝ)
  let log_max := Real.logb 10 (max_freq : ℝ)
  (10 : ℝ) ^ (log_min + (log_max - log_min) * ((i : ℝ) / (band_count : ℝ)))

/-- The unclamped bin index `(freq / freq_resolution) as usize` with
    `freq_resolution = sample_rate / fft_size`: an f32-to-usize cast
    truncates towards zero and saturates at 0, i.e. the natural floor. -/
noncomputable def raw_bin (sample_rate min_freq max_freq : ℚ)
    (fft_size band_count i : ℕ) : ℕ :=
  ⌊band_freq min_freq max_freq band_count i /
    ((sample_rate : ℝ) / (fft_size : ℝ))⌋₊

/-- The clamping step applied to one band entry:
    `start_idx.max(1).min(half_size - 1)` and
    `end_idx.max(start_idx + 1).min(half_size)` where `half_size` is
    `FFT_SIZE / 2` (the length of the retained half spectrum). -/
def clamp_band (half_size s_raw e_raw : ℕ) : ℕ × ℕ :=
  let s := min (max s_raw 1) (half_size - 1)
  (s, min (max e_raw (s + 1)) half_size)

/-- The full band index table pushed into BAND_INDEX_CACHE by
    init_band_indices_cache (src/dsp/fft.rs lines 43-53); the same
    per-band construction appears inline in run_fft (src/main.rs). -/
noncomputable def band_index_table (sample_rate min_freq max_freq : ℚ)
    (fft_size band_count : ℕ) : List (ℕ × ℕ) :=
  (List.range band_count).map (fun i =>
    clamp_band (fft_size / 2)
      (raw_bin sample_rate min_freq max_freq fft_size band_count i)
      (raw_bin sample_rate min_freq max_freq fft_size band_count (i + 1)))

/-- The two process-wide caches of src/dsp/fft.rs:
    BAND_INDEX_CACHE and BAND_GAINS_CACHE. -/
structure BandCaches where
  band_index : List (ℕ × ℕ)
  band_gains : List ℚ

/-- Translation of init_band_indices_cache (src/dsp/fft.rs lines 31-56)
    as a function on the cache state: an early return if the index cache
    is already populated, otherwise the table for the fixed parameters
    sample_rate 48000, min 20 Hz, max 20000 Hz, FFT_SIZE 4096, 64 bands is
    pushed and the gains cache is filled with 64 ones. -/
noncomputable def init_band_indices_cache (c : BandCaches) : BandCaches :=
  if c.band_index.isEmpty then
    { band_index := band_index_table 48000 20 20000 4096 64,
      band_gains := List.replicate 64 1 }
  else
    c

/-! ## The analysis pipeline of src/main.rs (FFT_SIZE 2048, BANDS 64) -/

/-- The forward discrete Fourier transform computed by
    `fft.process(fft_input)` on the complexified samples:
    output `k` is the sum over `n` of `x_n * exp(-2 pi i k n / N)`. -/
noncomputable def dft (x : List ℝ) (k : ℕ) : ℂ :=
  ∑ n ∈ Finset.range x.length,
    (x.getD n 0 : ℂ) *
      Complex.exp (-2 * (Real.pi : ℂ) * Complex.I * (k : ℂ) * (n : ℂ) / (x.length : ℂ))

/-- The per-band RMS of run_fft (src/main.rs lines 171-188): the sum over
    the bin range of the squared magnitude `sqrt(re^2 + im^2)^2`, divided
    by the iteration count `e - s` and square-rooted; the band is left at
    its initial 0 when the range is empty. -/
noncomputable def band_rms (sp : ℕ → ℂ) (s e : ℕ) : ℝ :=
  let sum_squares := ∑ idx ∈ Finset.Ico s e,
    Real.sqrt ((sp idx).re * (sp idx).re + (sp idx).im * (sp idx).im) *
      Real.sqrt ((sp idx).re * (sp idx).re + (sp idx).im * (sp idx).im)
  let count := e - s
  if 0 < count then Real.sqrt (sum_squares / (count : ℝ)) else 0

/-- Translation of the data path of run_fft (src/main.rs lines 127-198):
    FFT of the sample window, per-band RMS over the log-spaced bin ranges
    (sample rate 48000, FFT_SIZE 2048, 64 bands, 20 Hz - 20000 Hz), gain
    compensation, then normalization with S-curve enhancement.  The result
    is the spectrum handed to SharedPipe.write. -/
noncomputable def run_fft (samples : List ℝ) : Option (List ℝ) :=
  let sp := dft samples
  let bands := (List.range 64).map (fun i =>
    let p := clamp_band (2048 / 2)
      (raw_bin 48000 20 20000 2048 64 i)
      (raw_bin 48000 20 20000 2048 64 (i + 1))
    band_rms sp p.1 p.2)
  improved_normalize_spectrum (apply_band_gain_compensation bands)

/-! ## SharedPipe, sequential model (src/dsp/spectrum.rs) -/

/-- The number of spectrum bands (src/dsp/spectrum.rs line 4). -/
def BANDS : ℕ := 64

/-- Sequential state of SharedPipe: the two buffer slots, the current
    read index, and the version counter.  Lock acquisition outcomes are
    passed explicitly as booleans (false models a poisoned mutex). -/
structure SharedPipe where
  slot0 : List ℚ
  slot1 : List ℚ
  current : ℕ
  version : ℕ

/-- SharedPipe::new (src/dsp/spectrum.rs lines 14-20): both slots zeroed
    to BANDS entries, current index 0, version 0. -/
def SharedPipe.new : SharedPipe :=
  { slot0 := List.replicate BANDS 0, slot1 := List.replicate BANDS 0,
    current := 0, version := 0 }

/-- Indexing `self.data[i]` for `i` produced by the mod-2 arithmetic. -/
def SharedPipe.slotAt (p : SharedPipe) (i : ℕ) : List ℚ :=
  if i = 0 then p.slot0 else p.slot1

/-- Overwriting `self.data[i]`. -/
def SharedPipe.setSlot (p : SharedPipe) (i : ℕ) (v : List ℚ) : SharedPipe :=
  if i = 0 then { p with slot0 := v } else { p with slot1 := v }

/-- Vec::copy_from_slice: the destination is fully overwritten by the
    source when the lengths agree; a length mismatch panics (`none`). -/
def copy_from_slice (dst src : List ℚ) : Option (List ℚ) :=
  if src.length = dst.length then some src else none

/-- SharedPipe::write (src/dsp/spectrum.rs lines 22-37): compute the
    inactive slot index `(current + 1) % 2`; if its lock is acquired, copy
    the new data in, flip the current index, and bump the version; if the
    lock fails the body is skipped entirely. -/
def SharedPipe.write (p : SharedPipe) (new_data : List ℚ) (lock_ok : Bool) :
    Option SharedPipe :=
  let read_idx := p.current
  let write_idx := (read_idx + 1) % 2
  if lock_ok then
    (copy_from_slice (p.slotAt write_idx) new_data).map (fun buf =>
      { p.setSlot write_idx buf with current := write_idx, version := p.version + 1 })
  else
    some p

/-- SharedPipe::read (src/dsp/spectrum.rs lines 39-48): clone the slot at
    the current index, falling back to a zeroed vector of BANDS entries if
    the lock cannot be acquired. -/
def SharedPipe.read (p : SharedPipe) (lock_ok : Bool) : List ℚ :=
  if lock_ok then p.slotAt p.current else List.replicate BANDS 0

/-- SharedPipe::read_if_new (src/dsp/spectrum.rs lines 51-68) with the
    thread-local last version made an explicit argument: when the shared
    version is newer the data is read and the cursor updated, otherwise
    nothing is returned and the cursor is unchanged. -/
def SharedPipe.read_if_new (p : SharedPipe) (last_version : ℕ) (lock_ok : Bool) :
    Option (List ℚ) × ℕ :=
  if last_version < p.version then (some (p.read lock_ok), p.version)
  else (none, last_version)

/-- SharedPipe::has_new_data (src/dsp/spectrum.rs lines 71-81) with the
    thread-local last version explicit. -/
def SharedPipe.has_new_data (p : SharedPipe) (last_version : ℕ) : Bool :=
  decide (last_version < p.version)

/-- SharedPipe::read_with_tracking (src/dsp/spectrum.rs lines 84-88):
    a read paired with the current version. -/
def SharedPipe.read_with_tracking (p : SharedPipe) (lock_ok : Bool) :
    List ℚ × ℕ :=
  (p.read lock_ok, p.version)

/-- One single-threaded SharedPipe operation, with its lock outcome. -/
inductive PipeOp where
  | write (data : List ℚ) (lock_ok : Bool)
  | read (lock_ok : Bool)
  | read_if_new (lock_ok : Bool)
  | has_new_data
  | read_with_tracking (lock_ok : Bool)

/-- A single thread interacting with the pipe: the pipe state plus the
    thread-local version cursor used by read_if_new / has_new_data. -/
structure PipeThreadState where
  pipe : SharedPipe
  local_version : ℕ

/-- Initial thread state over a fresh pipe. -/
def PipeThreadState.init : PipeThreadState :=
  { pipe := SharedPipe.new, local_version := 0 }

/-- Effect of one operation on the sequential state (`none` models a
    panic of copy_from_slice on a length mismatch). -/
def applyOp (st : PipeThreadState) : PipeOp → Option PipeThreadState
  | PipeOp.write data lock_ok =>
      (st.pipe.write data lock_ok).map (fun p => { st with pipe := p })
  | PipeOp.read _ => some st
  | PipeOp.read_if_new lock_ok =>
      some { st with
        local_version := (st.pipe.read_if_new st.local_version lock_ok).2 }
  | PipeOp.has_new_data => some st
  | PipeOp.read_with_tracking _ => some st

/-- Run a sequence of operations. -/
def runOps (st : PipeThreadState) : List PipeOp → Option PipeThreadState
  | [] => some st
  | op :: rest => (applyOp st op).bind (fun st2 => runOps st2 rest)

/-- A concrete, strictly increasing band vector `1, 2, ..., 64` used to
    evaluate the normalization chain on a non-degenerate input. -/
def cex_bands : List ℚ := (List.range 64).map (fun i : ℕ => (i : ℚ) + 1)

/-! ## SharedPipe, interleaved small-step model (src/dsp/spectrum.rs)

One producer thread executes SharedPipe::write, any number of consumer
threads execute SharedPipe::read, each atomic action (atomic load/store,
lock acquisition and release, one element of the locked memory copy) being
one step of an interleaved transition system.  The slot index arithmetic
`(read_idx + 1) % 2` is carried by `Fin 2` (whose addition is mod 2). -/

/-- Thread identifiers: the single producer and numbered consumers. -/
inductive Tid where
  | producer
  | consumer (n : ℕ)
deriving DecidableEq

/-- The shared channel: the two slots with their mutex owners, the atomic
    current index, and the atomic version counter. -/
structure ChanState where
  slots : Fin 2 → List ℚ
  locks : Fin 2 → Option Tid
  current : Fin 2
  version : ℕ

/-- Program counter of the producer inside SharedPipe::write:
    after loading the current index, while copying element by element
    under the lock, after the index flip, and after the version bump. -/
inductive WriterPC where
  | idle
  | got_idx (w : Fin 2) (data : List ℚ)
  | copying (w : Fin 2) (data : List ℚ) (k : ℕ)
  | flipped (w : Fin 2) (data : List ℚ)
  | bumped (w : Fin 2) (data : List ℚ)

/-- Program counter of a consumer inside SharedPipe::read: after loading
    the current index, and while cloning element by element under the
    lock with accumulator `acc`. -/
inductive ReaderPC where
  | idle
  | got_idx (i : Fin 2)
  | cloning (i : Fin 2) (acc : List ℚ) (k : ℕ)

/-- Whole-system state: the channel, the producer and consumer program
    counters, the publish history (ghost), and the list of complete
    vectors returned by finished reads (ghost). -/
structure SysState where
  chan : ChanState
  wpc : WriterPC
  rpc : ℕ → ReaderPC
  published : List (List ℚ)
  observed : List (List ℚ)

/-- Initial system: both slots zeroed, locks free, everyone idle. -/
def SysState.init : SysState :=
  { chan := { slots := fun _ => List.replicate BANDS 0,
              locks := fun _ => none, current := 0, version := 0 },
    wpc := WriterPC.idle, rpc := fun _ => ReaderPC.idle,
    published := [], observed := [] }

/-- One atomic step of the interleaved system. -/
inductive Step : SysState → SysState → Prop where
  /-- write is called with `data`; the atomic load of `current` determines
      the inactive slot `(current + 1) % 2`.  The argument is recorded in
      the ghost publish history. -/
  | w_start (s : SysState) (data : List ℚ)
      (h : s.wpc = WriterPC.idle) (hlen : data.length = BANDS) :
      Step s { s with wpc := WriterPC.got_idx (s.chan.current + 1) data,
                      published := s.published ++ [data] }
  /-- the producer acquires the free lock of the inactive slot. -/
  | w_acquire (s : SysState) (w : Fin 2) (data : List ℚ)
      (h : s.wpc = WriterPC.got_idx w data) (hl : s.chan.locks w = none) :
      Step s { s with
        chan := { s.chan with
          locks := Function.update s.chan.locks w (some Tid.producer) },
        wpc := WriterPC.copying w data 0 }
  /-- copy_from_slice writes one element under the lock. -/
  | w_copy (s : SysState) (w : Fin 2) (data : List ℚ) (k : ℕ)
      (h : s.wpc = WriterPC.copying w data k) (hk : k < data.length) :
      Step s { s with
        chan := { s.chan with
          slots := Function.update s.chan.slots w
            ((s.chan.slots w).set k (data.getD k 0)) },
        wpc := WriterPC.copying w data (k + 1) }
  /-- the copy being complete, the atomic store flips `current`. -/
  | w_flip (s : SysState) (w : Fin 2) (data : List ℚ)
      (h : s.wpc = WriterPC.copying w data data.length) :
      Step s { s with chan := { s.chan with current := w },
                      wpc := WriterPC.flipped w data }
  /-- fetch_add increments the version. -/
  | w_bump (s : SysState) (w : Fin 2) (data : List ℚ)
      (h : s.wpc = WriterPC.flipped w data) :
      Step s { s with chan := { s.chan with version := s.chan.version + 1 },
                      wpc := WriterPC.bumped w data }
  /-- the guard is dropped, releasing the lock; write returns. -/
  | w_release (s : SysState) (w : Fin 2) (data : List ℚ)
      (h : s.wpc = WriterPC.bumped w data) :
      Step s { s with
        chan := { s.chan with locks := Function.update s.chan.locks w none },
        wpc := WriterPC.idle }
  /-- read is called by consumer `n`: the atomic load of `current`. -/
  | r_start (s : SysState) (n : ℕ) (h : s.rpc n = ReaderPC.idle) :
      Step s { s with
        rpc := Function.update s.rpc n (ReaderPC.got_idx s.chan.current) }
  /-- consumer `n` acquires the free lock of the slot it read. -/
  | r_acquire (s : SysState) (n : ℕ) (i : Fin 2)
      (h : s.rpc n = ReaderPC.got_idx i) (hl : s.chan.locks i = none) :
      Step s { s with
        chan := { s.chan with
          locks := Function.update s.chan.locks i (some (Tid.consumer n)) },
        rpc := Function.update s.rpc n (ReaderPC.cloning i [] 0) }
  /-- clone copies one element out under the lock. -/
  | r_copy (s : SysState) (n : ℕ) (i : Fin 2) (acc : List ℚ) (k : ℕ)
      (h : s.rpc n = ReaderPC.cloning i acc k)
      (hk : k < (s.chan.slots i).length) :
      Step s { s with
        rpc := Function.update s.rpc n
          (ReaderPC.cloning i (acc ++ [(s.chan.slots i).getD k 0]) (k + 1)) }
  /-- the clone being complete, the lock is released and read returns the
      accumulated vector, recorded in the ghost observation list. -/
  | r_finish (s : SysState) (n : ℕ) (i : Fin 2) (acc : List ℚ)
      (h : s.rpc n = ReaderPC.cloning i acc (s.chan.slots i).length) :
      Step s { s with
        chan := { s.chan with locks := Function.update s.chan.locks i none },
        rpc := Function.update s.rpc n ReaderPC.idle,
        observed := s.observed ++ [acc] }

/-- States reachable from the initial system by interleaved steps. -/
def Reachable (s : SysState) : Prop :=
  Relation.ReflTransGen Step SysState.init s

/-- The slot whose lock the producer holds, read off its program counter. -/
def wpcAt : WriterPC → Option (Fin 2)
  | WriterPC.copying w _ _ => some w
  | WriterPC.flipped w _ => some w
  | WriterPC.bumped w _ => some w
  | _ => none

/-- The slot whose lock a consumer holds, read off its program counter. -/
def rpcAt : ReaderPC → Option (Fin 2)
  | ReaderPC.cloning i _ _ => some i
  | _ => none

/-- Producer program counter invariant: the data being written is always
    a recorded publish of full length; during and after the locked copy
    the producer owns the target slot lock, and the first `k` copied
    elements of the slot agree with the data. -/
def wpcOk (s : SysState) : Prop :=
  (∀ w data, s.wpc = WriterPC.got_idx w data →
      data.length = BANDS ∧ data ∈ s.published) ∧
  (∀ w data k, s.wpc = WriterPC.copying w data k →
      data.length = BANDS ∧ data ∈ s.published ∧ k ≤ BANDS ∧
      s.chan.locks w = some Tid.producer ∧
      (s.chan.slots w).take k = data.take k) ∧
  (∀ w data, s.wpc = WriterPC.flipped w data ∨ s.wpc = WriterPC.bumped w data →
      data ∈ s.published ∧ s.chan.locks w = some Tid.producer ∧
      s.chan.slots w = data)

/-- Consumer program counter invariant: a cloning consumer owns the lock
    of the slot it clones, and its accumulator is exactly the prefix of
    the slot it has copied so far. -/
def rpcOk (s : SysState) (n : ℕ) : Prop :=
  ∀ i acc k, s.rpc n = ReaderPC.cloning i acc k →
    s.chan.locks i = some (Tid.consumer n) ∧
    k ≤ (s.chan.slots i).length ∧ acc = (s.chan.slots i).take k

/-- Lock ownership invariant: a held lock belongs to a thread whose
    program counter is inside its critical section on that very slot. -/
def lockOk (s : SysState) (i : Fin 2) : Prop :=
  (s.chan.locks i = some Tid.producer → wpcAt s.wpc = some i) ∧
  (∀ n, s.chan.locks i = some (Tid.consumer n) → rpcAt (s.rpc n) = some i)

/-- Global invariant of the interleaved system. -/
structure Inv (s : SysState) : Prop where
  slot_len : ∀ i, (s.chan.slots i).length = BANDS
  slot_pub : ∀ i, s.chan.locks i ≠ some Tid.producer →
      s.chan.slots i = List.replicate BANDS 0 ∨ s.chan.slots i ∈ s.published
  wpc_ok : wpcOk s
  rpc_ok : ∀ n, rpcOk s n
  lock_ok : ∀ i, lockOk s i
  obs_ok : ∀ v ∈ s.observed, v = List.replicate BANDS 0 ∨ v ∈ s.published

/-! ## Theorems -/

/-- Claim C9: if a slot mutex fails to acquire, SharedPipe::read returns
    the zeroed fallback vector of BANDS entries instead of propagating an
    error, and a failed SharedPipe::write leaves the channel state
    entirely unchanged (no slot write, no index flip, no version bump). -/
theorem read_write_lock_failure (p : SharedPipe) (d : List ℚ) :
    p.read false = List.replicate BANDS 0 ∧ p.write d false = some p :=
  ⟨rfl, rfl⟩

/-- Claim C6: running init_band_indices_cache on an already populated
    cache is a no-op, so a second run leaves the table of the first run
    unchanged (memoization idempotence). -/
theorem init_band_indices_cache_idem (c : BandCaches) :
    init_band_indices_cache (init_band_indices_cache c) =
      init_band_indices_cache c := by
  by_cases h : c.band_index.isEmpty
  · have htab : (band_index_table 48000 20 20000 4096 64).isEmpty = false := by
      simp [band_index_table, List.isEmpty_iff, List.range_eq_nil]
    simp [init_band_indices_cache, h, htab]
  · simp [init_band_indices_cache, h]

/-- Helper: one operation never decreases the version. -/
theorem applyOp_version_le (st : PipeThreadState) (op : PipeOp)
    (st2 : PipeThreadState) (h : applyOp st op = some st2) :
    st.pipe.version ≤ st2.pipe.version := by
  cases op with
  | write data lock_ok =>
      cases lock_ok with
      | false =>
          simp [applyOp, SharedPipe.write] at h
          simp [← h]
      | true =>
          simp only [applyOp, SharedPipe.write, if_true] at h
          rcases Option.map_eq_some'.1 h with ⟨p, hp, hst⟩
          rcases Option.map_eq_some'.1 hp with ⟨buf, _, hpdef⟩
          subst hst
          simp [← hpdef, SharedPipe.setSlot]
  | read _ => simp [applyOp] at h; simp [← h]
  | read_if_new _ => simp [applyOp] at h; simp [← h]
  | has_new_data => simp [applyOp] at h; simp [← h]
  | read_with_tracking _ => simp [applyOp] at h; simp [← h]

/-- Helper: a successful lock-acquiring write bumps the version by one. -/
theorem applyOp_write_version (st : PipeThreadState) (data : List ℚ)
    (st2 : PipeThreadState) (h : applyOp st (PipeOp.write data true) = some st2) :
    st2.pipe.version = st.pipe.version + 1 := by
  simp only [applyOp, SharedPipe.write, if_true] at h
  rcases Option.map_eq_some'.1 h with ⟨p, hp, hst⟩
  rcases Option.map_eq_some'.1 hp with ⟨buf, _, hpdef⟩
  subst hst
  simp [← hpdef, SharedPipe.setSlot]

/-- Helper: operations other than a lock-acquiring write keep the version. -/
theorem applyOp_version_eq (st : PipeThreadState) (op : PipeOp)
    (st2 : PipeThreadState) (hop : ∀ data, op ≠ PipeOp.write data true)
    (h : applyOp st op = some st2) :
    st2.pipe.version = st.pipe.version := by
  cases op with
  | write data lock_ok =>
      cases lock_ok with
      | false =>
          simp [applyOp, SharedPipe.write] at h
          simp [← h]
      | true => exact absurd rfl (hop data)
  | read _ => simp [applyOp] at h; simp [← h]
  | read_if_new _ => simp [applyOp] at h; simp [← h]
  | has_new_data => simp [applyOp] at h; simp [← h]
  | read_with_tracking _ => simp [applyOp] at h; simp [← h]

/-- Helper: the version is non-decreasing along any run. -/
theorem runOps_version_le (ops : List PipeOp) (st st2 : PipeThreadState)
    (h : runOps st ops = some st2) :
    st.pipe.version ≤ st2.pipe.version := by
  induction ops generalizing st with
  | nil => simp [runOps] at h; simp [← h]
  | cons op rest ih =>
      simp only [runOps, Option.bind_eq_some] at h
      rcases h with ⟨stm, hop, hrest⟩
      exact le_trans (applyOp_version_le st op stm hop) (ih stm hrest)

/-- Claim C5: over any single-threaded sequence of SharedPipe operations
    the version counter is non-decreasing (in particular the version
    returned by read_with_tracking never decreases across calls), every
    successful lock-acquiring write increases it by exactly one, and no
    other operation changes it. -/
theorem version_monotonic :
    (∀ st op st2, applyOp st op = some st2 →
        st.pipe.version ≤ st2.pipe.version) ∧
    (∀ st data st2, applyOp st (PipeOp.write data true) = some st2 →
        st2.pipe.version = st.pipe.version + 1) ∧
    (∀ st op st2, (∀ data, op ≠ PipeOp.write data true) →
        applyOp st op = some st2 → st2.pipe.version = st.pipe.version) ∧
    (∀ st ops st2 l1 l2, runOps st ops = some st2 →
        (st.pipe.read_with_tracking l1).2 ≤ (st2.pipe.read_with_tracking l2).2) :=
  ⟨applyOp_version_le, applyOp_write_version, applyOp_version_eq,
   fun st ops st2 _ _ h => runOps_version_le ops st st2 h⟩

/-- Witness for claim C5: one concrete successful write, tracked reads
    before and after. -/
theorem version_monotonic_witness :
    (PipeThreadState.init.pipe.read_with_tracking true).2 ≤
      ((({ pipe := { slot0 := List.replicate 64 0, slot1 := List.replicate 64 0,
                     current := 1, version := 1 },
           local_version := 0 } : PipeThreadState)).pipe.read_with_tracking true).2 :=
  version_monotonic.2.2.2 PipeThreadState.init
    [PipeOp.write (List.replicate 64 0) true]
    { pipe := { slot0 := List.replicate 64 0, slot1 := List.replicate 64 0,
                current := 1, version := 1 }, local_version := 0 }
    true true rfl

/-- Helper: one operation preserves the BANDS length of both slots. -/
theorem applyOp_slot_len (st : PipeThreadState) (op : PipeOp)
    (st2 : PipeThreadState)
    (h0 : st.pipe.slot0.length = BANDS) (h1 : st.pipe.slot1.length = BANDS)
    (h : applyOp st op = some st2) :
    st2.pipe.slot0.length = BANDS ∧ st2.pipe.slot1.length = BANDS := by
  cases op with
  | write data lock_ok =>
      cases lock_ok with
      | false =>
          simp [applyOp, SharedPipe.write] at h
          simp [← h, h0, h1]
      | true =>
          simp only [applyOp, SharedPipe.write, if_true] at h
          rcases Option.map_eq_some'.1 h with ⟨p, hp, hst⟩
          rcases Option.map_eq_some'.1 hp with ⟨buf, hbuf, hpdef⟩
          subst hst
          rw [copy_from_slice] at hbuf
          split at hbuf
          · rename_i hc
            have hdb : data = buf := by injection hbuf
            subst hdb
            have hbl : data.length = BANDS := by
              rw [hc]
              by_cases hz : (st.pipe.current + 1) % 2 = 0 <;>
                simp [SharedPipe.slotAt, hz, h0, h1]
            simp only [← hpdef, SharedPipe.setSlot]
            by_cases hz : (st.pipe.current + 1) % 2 = 0 <;>
              simp [hz, h0, h1, hbl]
          · exact absurd hbuf (by simp)
  | read _ => simp [applyOp] at h; simp [← h, h0, h1]
  | read_if_new _ => simp [applyOp] at h; simp [← h, h0, h1]
  | has_new_data => simp [applyOp] at h; simp [← h, h0, h1]
  | read_with_tracking _ => simp [applyOp] at h; simp [← h, h0, h1]

/-- Helper: slot lengths are preserved along any run. -/
theorem runOps_slot_len (ops : List PipeOp) (st st2 : PipeThreadState)
    (h0 : st.pipe.slot0.length = BANDS) (h1 : st.pipe.slot1.length = BANDS)
    (h : runOps st ops = some st2) :
    st2.pipe.slot0.length = BANDS ∧ st2.pipe.slot1.length = BANDS := by
  induction ops generalizing st with
  | nil => simp [runOps] at h; simp [← h, h0, h1]
  | cons op rest ih =>
      simp only [runOps, Option.bind_eq_some] at h
      rcases h with ⟨stm, hop, hrest⟩
      rcases applyOp_slot_len st op stm h0 h1 hop with ⟨m0, m1⟩
      exact ih stm m0 m1 hrest

/-- Claim C10: in every state reachable from SharedPipe::new by operation
    sequences whose writes carry BANDS = 64 entries, both slots hold
    exactly 64 elements, and read (hence read_if_new and
    read_with_tracking) returns exactly 64 elements, including on the
    lock-failure fallback path. -/
theorem pipe_vector_lengths (ops : List PipeOp) (st2 : PipeThreadState)
    (hops : ∀ data lock_ok, PipeOp.write data lock_ok ∈ ops →
        data.length = BANDS)
    (hrun : runOps PipeThreadState.init ops = some st2) :
    st2.pipe.slot0.length = BANDS ∧ st2.pipe.slot1.length = BANDS ∧
    (∀ lock_ok, (st2.pipe.read lock_ok).length = BANDS) ∧
    (∀ lock_ok, (st2.pipe.read_with_tracking lock_ok).1.length = BANDS) ∧
    (∀ lv lock_ok out v2, st2.pipe.read_if_new lv lock_ok = (some out, v2) →
        out.length = BANDS) := by
  obtain ⟨h0, h1⟩ := runOps_slot_len ops PipeThreadState.init st2
    (by simp [PipeThreadState.init, SharedPipe.new])
    (by simp [PipeThreadState.init, SharedPipe.new]) hrun
  have hread : ∀ lock_ok, (st2.pipe.read lock_ok).length = BANDS := by
    intro lock_ok
    cases lock_ok with
    | false => simp [SharedPipe.read]
    | true =>
        by_cases hz : st2.pipe.current = 0 <;>
          simp [SharedPipe.read, SharedPipe.slotAt, hz, h0, h1]
  refine ⟨h0, h1, hread, fun lock_ok => hread lock_ok, ?_⟩
  intro lv lock_ok out v2 hr
  rw [SharedPipe.read_if_new] at hr
  split at hr
  · have : some (st2.pipe.read lock_ok) = some out := congrArg Prod.fst hr
    have hout : st2.pipe.read lock_ok = out := by injection this
    rw [← hout]
    exact hread lock_ok
  · exact absurd (congrArg Prod.fst hr) (by simp)

/-- Witness for claim C10: the empty run from the fresh pipe. -/
theorem pipe_vector_lengths_witness :
    PipeThreadState.init.pipe.slot0.length = BANDS ∧
    PipeThreadState.init.pipe.slot1.length = BANDS ∧
    (∀ lock_ok, (PipeThreadState.init.pipe.read lock_ok).length = BANDS) ∧
    (∀ lock_ok,
      (PipeThreadState.init.pipe.read_with_tracking lock_ok).1.length = BANDS) ∧
    (∀ lv lock_ok out v2,
      PipeThreadState.init.pipe.read_if_new lv lock_ok = (some out, v2) →
        out.length = BANDS) :=
  pipe_vector_lengths [] PipeThreadState.init (by simp) rfl

/-- Helper: elementwise description of the gain compensation loop. -/
theorem gain_loop_getD (n : ℕ) (l : List α) :
    ∀ i j, j < l.length →
      (gain_loop n i l).getD j 0 = gain_one n (i + j) (l.getD j 0) := by
  induction l with
  | nil => intro i j hj; simp at hj
  | cons b rest ih =>
      intro i j hj
      cases j with
      | zero => simp [gain_loop]
      | succ j =>
          simp only [gain_loop, List.getD_cons_succ]
          rw [ih (i + 1) j (by simpa using hj)]
          have hij : i + 1 + j = i + (j + 1) := by omega
          rw [hij]

/-- Helper: the gain factor never inverts the sign of a band value. -/
theorem gain_one_nonneg (n i : ℕ) (b : α) (hb : 0 ≤ b) :
    0 ≤ gain_one n i b := by
  have hfr : (0:α) ≤ (i : α) / (n : α) := by positivity
  simp only [gain_one]
  split_ifs with h1 h2
  · have hf : (0:α) ≤ 1 - (3/10 - (i : α) / (n : α)) * 2 := by nlinarith
    exact mul_nonneg hb hf
  · have hf : (0:α) ≤ 1 + ((i : α) / (n : α) - 8/10) * (3/2) := by nlinarith
    exact mul_nonneg hb hf
  · exact hb

/-- Helper: the gain loop preserves non-negativity. -/
theorem gain_loop_nonneg (n : ℕ) (l : List α) (hl : ∀ b ∈ l, 0 ≤ b) :
    ∀ i, ∀ y ∈ gain_loop n i l, 0 ≤ y := by
  induction l with
  | nil => intro i y hy; simp [gain_loop] at hy
  | cons b rest ih =>
      intro i y hy
      simp only [gain_loop, List.mem_cons] at hy
      rcases hy with rfl | hy
      · exact gain_one_nonneg n i b (hl b (by simp))
      · exact ih (fun c hc => hl c (by simp [hc])) (i + 1) y hy

/-- Claim C7: gain compensation multiplies band i (with r = i / count) by
    1 - (0.3 - r) * 2 when r < 0.3, by 1 + (r - 0.8) * 1.5 when r > 0.8,
    leaves it unchanged otherwise, and maps non-negative band vectors to
    non-negative band vectors (the attenuation never inverts the sign). -/
theorem gain_compensation_formula (bands : List ℚ)
    (hb : ∀ b ∈ bands, 0 ≤ b) :
    (∀ i, i < bands.length →
      (apply_band_gain_compensation bands).getD i 0 =
        (if ((i : ℚ) / (bands.length : ℚ)) < 3/10 then
           bands.getD i 0 * (1 - (3/10 - (i : ℚ) / (bands.length : ℚ)) * 2)
         else if 8/10 < ((i : ℚ) / (bands.length : ℚ)) then
           bands.getD i 0 * (1 + ((i : ℚ) / (bands.length : ℚ) - 8/10) * (3/2))
         else bands.getD i 0)) ∧
    (∀ y ∈ apply_band_gain_compensation bands, 0 ≤ y) := by
  constructor
  · intro i hi
    rw [apply_band_gain_compensation, gain_loop_getD bands.length bands 0 i hi]
    simp [gain_one]
  · intro y hy
    exact gain_loop_nonneg bands.length bands hb 0 y hy

/-- Witness for claim C7: the singleton band vector [1]. -/
theorem gain_compensation_formula_witness :
    (∀ i, i < ([1] : List ℚ).length →
      (apply_band_gain_compensation ([1] : List ℚ)).getD i 0 =
        (if ((i : ℚ) / (([1] : List ℚ).length : ℚ)) < 3/10 then
           ([1] : List ℚ).getD i 0 *
             (1 - (3/10 - (i : ℚ) / (([1] : List ℚ).length : ℚ)) * 2)
         else if 8/10 < ((i : ℚ) / (([1] : List ℚ).length : ℚ)) then
           ([1] : List ℚ).getD i 0 *
             (1 + ((i : ℚ) / (([1] : List ℚ).length : ℚ) - 8/10) * (3/2))
         else ([1] : List ℚ).getD i 0)) ∧
    (∀ y ∈ apply_band_gain_compensation ([1] : List ℚ), 0 ≤ y) :=
  gain_compensation_formula [1] (by simp)

/-- Helper: the percentile index for 64 bands is 60. -/
theorem percentile_95_idx_64 : percentile_95_idx 64 = 60 := by
  rw [percentile_95_idx, Nat.floor_eq_iff (by positivity)]
  norm_num

/-- Claim C8: on any 64-band vector of (finite, comparable) values the
    normalization step never fails: the percentile index max(60, 1) = 60
    is within bounds of the sorted copy, the reference value exists and is
    floored at the epsilon 1e-6, and the whole normalization returns a
    result rather than an error. -/
theorem analyzer_never_fails (bands : List ℚ) (hlen : bands.length = 64) :
    max (percentile_95_idx 64) 1 = 60 ∧
    ∃ ref, reference_value bands = some ref ∧ 1/1000000 ≤ ref ∧
      (improved_normalize_spectrum bands).isSome := by
  refine ⟨by rw [percentile_95_idx_64]; omega, ?_⟩
  have hsl : (List.insertionSort (· ≤ ·) bands).length = 64 := by
    rw [List.length_insertionSort, hlen]
  have h60lt : 60 < (List.insertionSort (· ≤ ·) bands).length := by
    rw [hsl]; norm_num
  have hrv : reference_value bands =
      some (max ((List.insertionSort (· ≤ ·) bands).get ⟨60, h60lt⟩)
        (1/1000000)) := by
    simp only [reference_value, hsl, percentile_95_idx_64]
    have hmax : (max 60 1 : ℕ) = 60 := by omega
    rw [hmax, List.get?_eq_get h60lt, Option.map_some']
  refine ⟨_, hrv, le_max_right _ _, ?_⟩
  simp only [improved_normalize_spectrum, hrv, Option.map_some', Option.isSome_some]

/-- Witness for claim C8: the zero 64-band vector. -/
theorem analyzer_never_fails_witness :
    max (percentile_95_idx 64) 1 = 60 ∧
    ∃ ref, reference_value (List.replicate 64 (0:ℚ)) = some ref ∧
      1/1000000 ≤ ref ∧
      (improved_normalize_spectrum (List.replicate 64 (0:ℚ))).isSome :=
  analyzer_never_fails (List.replicate 64 0) (by simp)

/-- Helper: the clamp to [0, 1] indeed lands in [0, 1]. -/
theorem fclamp01_bounds (x : α) : 0 ≤ fclamp x 0 1 ∧ fclamp x 0 1 ≤ 1 :=
  ⟨le_min (le_max_right x 0) zero_le_one, min_le_right _ _⟩

/-- Helper: on [0, 1] the S-curve output lies in [0, 1.4]. -/
theorem s_curve_enhancement_bounds (x : α) (h0 : 0 ≤ x) (h1 : x ≤ 1) :
    0 ≤ s_curve_enhancement x ∧ s_curve_enhancement x ≤ 7/5 := by
  simp only [s_curve_enhancement]
  split_ifs with hlow hhigh
  · constructor <;> nlinarith
  · constructor <;> nlinarith
  · have hx1 : (1:α)/10 ≤ x := le_of_not_lt hlow
    have hx9 : x ≤ 9/10 := le_of_not_lt hhigh
    have ht : (x - 1/10) / ((8:α)/10) = (x - 1/10) * (5/4) := by ring
    rw [ht]
    constructor <;>
      nlinarith [sq_nonneg ((x - 1/10) * (5/4)),
        sq_nonneg (1 - (x - 1/10) * (5/4))]

/-- Claim C2 (amended): after robust normalization and S-curve contrast
    enhancement every output value lies in [0, 1.4]: the clamp bounds the
    normalized value in [0, 1] and the S-curve high branch maps the
    maximum 1 to exactly 1.4. -/
theorem normalize_enhance_bounded (bands out : List ℚ)
    (h : improved_normalize_spectrum bands = some out) :
    ∀ y ∈ out, 0 ≤ y ∧ y ≤ 7/5 := by
  rw [improved_normalize_spectrum] at h
  rcases Option.map_eq_some'.1 h with ⟨ref, _, hout⟩
  subst hout
  intro y hy
  rcases List.mem_map.1 hy with ⟨b, _, rfl⟩
  exact s_curve_enhancement_bounds _ (fclamp01_bounds (b / ref)).1
    (fclamp01_bounds (b / ref)).2

/-- Helper: sorting a constant list is the identity. -/
theorem insertionSort_replicate_zero (n : ℕ) :
    List.insertionSort (· ≤ ·) (List.replicate n (0:α)) =
      List.replicate n 0 :=
  List.Sorted.insertionSort_eq (List.pairwise_replicate.2 (Or.inr (le_refl 0)))

/-- Helper: normalizing the silent 64-band vector yields all zeros. -/
theorem normalize_zero64 :
    improved_normalize_spectrum (List.replicate 64 (0:α)) =
      some (List.replicate 64 0) := by
  have hrv : reference_value (List.replicate 64 (0:α)) = some (1/1000000) := by
    simp only [reference_value, insertionSort_replicate_zero,
      List.length_replicate, percentile_95_idx_64]
    have hmax : (max 60 1 : ℕ) = 60 := by omega
    rw [hmax, List.get?_eq_getElem?, List.getElem?_replicate]
    norm_num
  have hf : s_curve_enhancement (fclamp ((0:α) / (1/1000000)) 0 1) = 0 := by
    have h0 : (0:α) / (1/1000000) = 0 := by norm_num
    rw [h0]
    have hcl : fclamp (0:α) 0 1 = 0 := by
      rw [fclamp, max_self]
      exact min_eq_left (by norm_num)
    rw [hcl]
    simp only [s_curve_enhancement]
    rw [if_pos (by norm_num : (0:α) < 1/10)]
    ring
  simp only [improved_normalize_spectrum, hrv, Option.map_some',
    List.map_replicate, hf]

/-- Witness for claim C2 (amended): the bound at the zero output band of
    the silent spectrum. -/
theorem normalize_enhance_bounded_witness :
    0 ≤ (0:ℚ) ∧ (0:ℚ) ≤ 7/5 :=
  normalize_enhance_bounded (List.replicate 64 0) (List.replicate 64 0)
    normalize_zero64 0 (by simp)

/-- Helper: the vector 1, ..., 64 is already sorted. -/
theorem cex_bands_sorted : List.Sorted (· ≤ ·) cex_bands := by
  rw [cex_bands]
  refine List.Pairwise.map _ ?_ (List.pairwise_lt_range 64)
  intro a b hab
  have hc : (a : ℚ) ≤ (b : ℚ) := Nat.cast_le.2 hab.le
  exact add_le_add_right hc 1

/-- Helper: the reference value of the vector 1, ..., 64 is 61. -/
theorem cex_bands_reference : reference_value cex_bands = some 61 := by
  have hsort : List.insertionSort (· ≤ ·) cex_bands = cex_bands :=
    List.Sorted.insertionSort_eq cex_bands_sorted
  have hlen : cex_bands.length = 64 := by
    rw [cex_bands, List.length_map, List.length_range]
  simp only [reference_value, hsort, hlen, percentile_95_idx_64]
  have hmax : (max 60 1 : ℕ) = 60 := by omega
  rw [hmax, cex_bands, List.get?_eq_getElem?, List.getElem?_map,
    List.getElem?_range (by norm_num : (60:ℕ) < 64)]
  norm_num

/-- Claim C2 counterexample: on the non-degenerate band vector 1, ..., 64
    the normalization and enhancement chain outputs the value 1.4 (for the
    last band), which exceeds the claimed bound 1.2. -/
theorem normalize_enhance_exceeds :
    ((improved_normalize_spectrum cex_bands).getD []).getD 63 0 = 7/5 ∧
    ¬ ((7:ℚ)/5 ≤ 6/5) := by
  constructor
  · simp only [improved_normalize_spectrum, cex_bands_reference,
      Option.map_some', Option.getD_some]
    rw [List.getD_eq_getElem?_getD]
    rw [show cex_bands = (List.range 64).map (fun i : ℕ => (i : ℚ) + 1) from rfl]
    rw [List.getElem?_map, List.getElem?_map, List.getElem?_range
      (by norm_num : (63:ℕ) < 64)]
    simp only [Option.map_some', Option.getD_some]
    have hx : ((63:ℕ) : ℚ) + 1 = 64 := by norm_num
    rw [hx]
    have hclamp : fclamp ((64:ℚ) / 61) 0 1 = 1 := by
      rw [fclamp]
      rw [max_eq_left (by norm_num : (0:ℚ) ≤ 64 / 61)]
      rw [min_eq_right (by norm_num : (1:ℚ) ≤ 64 / 61)]
    rw [hclamp, s_curve_enhancement]
    norm_num
  · norm_num

/-- Helper: the log-spaced boundary frequencies increase with the band
    index. -/
theorem band_freq_mono (min_freq max_freq : ℚ) (band_count : ℕ)
    (hmin : 0 < min_freq) (hmm : min_freq ≤ max_freq) {i j : ℕ} (hij : i ≤ j) :
    band_freq min_freq max_freq band_count i ≤
      band_freq min_freq max_freq band_count j := by
  simp only [band_freq]
  apply Real.rpow_le_rpow_of_exponent_le (by norm_num)
  have hlm : Real.logb 10 (min_freq : ℝ) ≤ Real.logb 10 (max_freq : ℝ) :=
    Real.logb_le_logb_of_le (by norm_num) (by exact_mod_cast hmin)
      (by exact_mod_cast hmm)
  have hdiv : (i : ℝ) / (band_count : ℝ) ≤ (j : ℝ) / (band_count : ℝ) := by
    rcases Nat.eq_zero_or_pos band_count with h0 | hpos
    · simp [h0]
    · exact (div_le_div_right (by exact_mod_cast hpos)).2 (Nat.cast_le.2 hij)
  have hr : 0 ≤ Real.logb 10 (max_freq : ℝ) - Real.logb 10 (min_freq : ℝ) := by
    linarith
  exact add_le_add_left (mul_le_mul_of_nonneg_left hdiv hr) _

/-- Helper: the unclamped bin indices increase with the band index. -/
theorem raw_bin_mono (sample_rate min_freq max_freq : ℚ)
    (fft_size band_count : ℕ) (hsr : 0 < sample_rate) (hmin : 0 < min_freq)
    (hmm : min_freq ≤ max_freq) (hfft : 0 < fft_size) {i j : ℕ} (hij : i ≤ j) :
    raw_bin sample_rate min_freq max_freq fft_size band_count i ≤
      raw_bin sample_rate min_freq max_freq fft_size band_count j := by
  apply Nat.floor_le_floor
  have hres : (0:ℝ) < (sample_rate : ℝ) / (fft_size : ℝ) :=
    div_pos (by exact_mod_cast hsr) (by exact_mod_cast hfft)
  exact (div_le_div_right hres).2
    (band_freq_mono min_freq max_freq band_count hmin hmm hij)

/-- Helper: the clamping of one entry yields 1 <= start < end <= half. -/
theorem clamp_band_bounds (half_size s_raw e_raw : ℕ) (hh : 2 ≤ half_size) :
    1 ≤ (clamp_band half_size s_raw e_raw).1 ∧
    (clamp_band half_size s_raw e_raw).1 < (clamp_band half_size s_raw e_raw).2 ∧
    (clamp_band half_size s_raw e_raw).2 ≤ half_size := by
  simp only [clamp_band]
  omega

/-- Helper: the clamped start index is monotone in the raw start index. -/
theorem clamp_band_start_mono (half_size s1 e1 s2 e2 : ℕ) (hs : s1 ≤ s2) :
    (clamp_band half_size s1 e1).1 ≤ (clamp_band half_size s2 e2).1 := by
  simp only [clamp_band]
  omega

/-- Claim C3: every entry (start, end) of a band index table generated by
    the clamping construction satisfies 1 ≤ start < end ≤ fft_size/2, the
    entries are ordered by monotone non-decreasing start index, and hence
    the skip branch for start ≥ end is never taken. -/
theorem band_index_table_ok (sample_rate min_freq max_freq : ℚ)
    (fft_size band_count : ℕ) (hsr : 0 < sample_rate) (hmin : 0 < min_freq)
    (hmm : min_freq ≤ max_freq) (hfft : 4 ≤ fft_size) :
    (∀ p ∈ band_index_table sample_rate min_freq max_freq fft_size band_count,
        1 ≤ p.1 ∧ p.1 < p.2 ∧ p.2 ≤ fft_size / 2 ∧ ¬ p.2 ≤ p.1) ∧
    List.Pairwise (fun p q => p.1 ≤ q.1)
      (band_index_table sample_rate min_freq max_freq fft_size band_count) := by
  have hh : 2 ≤ fft_size / 2 := by omega
  constructor
  · intro p hp
    rw [band_index_table] at hp
    rcases List.mem_map.1 hp with ⟨i, _, rfl⟩
    obtain ⟨h1, h2, h3⟩ := clamp_band_bounds (fft_size / 2)
      (raw_bin sample_rate min_freq max_freq fft_size band_count i)
      (raw_bin sample_rate min_freq max_freq fft_size band_count (i + 1)) hh
    exact ⟨h1, h2, h3, by omega⟩
  · rw [band_index_table, List.pairwise_map]
    exact List.Pairwise.imp
      (fun hab => clamp_band_start_mono _ _ _ _ _
        (raw_bin_mono sample_rate min_freq max_freq fft_size band_count hsr
          hmin hmm (by omega) hab.le))
      (List.pairwise_lt_range band_count)

/-- Witness for claim C3: the parameters of src/dsp/fft.rs. -/
theorem band_index_table_ok_witness :
    (∀ p ∈ band_index_table 48000 20 20000 4096 64,
        1 ≤ p.1 ∧ p.1 < p.2 ∧ p.2 ≤ 4096 / 2 ∧ ¬ p.2 ≤ p.1) ∧
    List.Pairwise (fun p q => p.1 ≤ q.1)
      (band_index_table 48000 20 20000 4096 64) :=
  band_index_table_ok 48000 20 20000 4096 64 (by decide) (by decide)
    (by decide) (by decide)

/-- Helper: the DFT of the silent window vanishes everywhere. -/
theorem dft_zero (n k : ℕ) : dft (List.replicate n (0:ℝ)) k = 0 := by
  simp only [dft]
  apply Finset.sum_eq_zero
  intro m _
  have hz : (List.replicate n (0:ℝ)).getD m 0 = 0 := by
    rw [List.getD_eq_getElem?_getD, List.getElem?_replicate]
    split <;> rfl
  rw [hz]
  simp

/-- Helper: the per-band RMS of the zero spectrum is zero. -/
theorem band_rms_zero (s e : ℕ) : band_rms (fun _ => (0:ℂ)) s e = 0 := by
  simp only [band_rms, Complex.zero_re, Complex.zero_im, mul_zero, add_zero,
    Real.sqrt_zero, zero_mul, Finset.sum_const_zero, zero_div]
  split <;> simp

/-- Helper: gain compensation of an all-zero list is all-zero. -/
theorem gain_loop_zero (n m i : ℕ) :
    gain_loop n i (List.replicate m (0:α)) = List.replicate m 0 := by
  induction m generalizing i with
  | zero => simp [gain_loop]
  | succ m ih =>
      simp only [List.replicate_succ, gain_loop, ih]
      congr 1
      simp only [gain_one]
      split_ifs <;> ring

/-- Claim C4: the full analysis pipeline of run_fft (FFT, per-band RMS,
    gain compensation, normalization with reference floored at 1e-6,
    S-curve enhancement) maps the all-zero sample window to the spectrum
    with every one of the 64 band values equal to 0. -/
theorem run_fft_silence :
    run_fft (List.replicate 2048 (0:ℝ)) = some (List.replicate 64 0) := by
  have hdft : dft (List.replicate 2048 (0:ℝ)) = fun _ => 0 :=
    funext (fun k => dft_zero 2048 k)
  have hbands : (List.range 64).map (fun i =>
      let p := clamp_band (2048 / 2)
        (raw_bin 48000 20 20000 2048 64 i)
        (raw_bin 48000 20 20000 2048 64 (i + 1))
      band_rms (dft (List.replicate 2048 (0:ℝ))) p.1 p.2) =
      List.replicate 64 0 := by
    rw [hdft]
    simp only [band_rms_zero]
    rw [List.map_const', List.length_range]
  rw [run_fft, hbands]
  have hgain : apply_band_gain_compensation (List.replicate 64 (0:ℝ)) =
      List.replicate 64 0 := by
    rw [apply_band_gain_compensation, List.length_replicate]
    exact gain_loop_zero 64 64 0
  rw [hgain, normalize_zero64]

/-- Helper: extending a prefix by one element, read through getD. -/
theorem take_succ_getD {β : Type} (l : List β) (k : ℕ) (d : β)
    (h : k < l.length) : l.take (k + 1) = l.take k ++ [l.getD k d] := by
  rw [List.take_succ]
  congr 1
  rw [List.getElem?_eq_getElem h, List.getD_eq_getElem?_getD,
    List.getElem?_eq_getElem h]
  rfl

/-- Helper: the prefix after writing the element just past it. -/
theorem take_set_succ {β : Type} (l : List β) (k : ℕ) (a : β)
    (h : k < l.length) : (l.set k a).take (k + 1) = l.take k ++ [a] := by
  induction l generalizing k with
  | nil => simp at h
  | cons x xs ih =>
      cases k with
      | zero => simp
      | succ k =>
          simp only [List.set_cons_succ, List.take_succ_cons, List.cons_append]
          rw [ih k (by simpa using h)]

/-- The invariant holds in the initial system state. -/
theorem inv_init : Inv SysState.init := by
  refine ⟨?_, ?_, ⟨?_, ?_, ?_⟩, ?_, ?_, ?_⟩
  · intro i; simp [SysState.init]
  · intro i _; exact Or.inl rfl
  · intro w data heq; exact WriterPC.noConfusion heq
  · intro w data k heq; exact WriterPC.noConfusion heq
  · intro w data heq
    rcases heq with heq | heq <;> exact WriterPC.noConfusion heq
  · intro n i acc k heq; exact ReaderPC.noConfusion heq
  · intro i
    exact ⟨fun hp => Option.noConfusion hp, fun n hn => Option.noConfusion hn⟩
  · intro v hv; simp [SysState.init] at hv

/-- One interleaved step preserves the invariant. -/
theorem step_inv (s s2 : SysState) (hs : Step s s2) (inv : Inv s) : Inv s2 := by
  cases hs with
  | w_start data h hlen =>
      refine ⟨?_, ?_, ⟨?_, ?_, ?_⟩, ?_, ?_, ?_⟩ <;> try dsimp only [wpcOk, rpcOk, lockOk]
      · exact inv.slot_len
      · intro i hi
        exact (inv.slot_pub i hi).imp_right (fun hm => List.mem_append_left _ hm)
      · intro w d heq
        cases heq
        exact ⟨hlen, List.mem_append_right _ (List.mem_singleton_self data)⟩
      · intro w d k heq; exact WriterPC.noConfusion heq
      · intro w d heq
        rcases heq with heq | heq <;> exact WriterPC.noConfusion heq
      · exact inv.rpc_ok
      · intro i
        refine ⟨?_, (inv.lock_ok i).2⟩
        intro hp
        have h2 := (inv.lock_ok i).1 hp
        rw [h] at h2
        exact Option.noConfusion h2
      · intro v hv
        exact (inv.obs_ok v hv).imp_right (fun hm => List.mem_append_left _ hm)
  | w_acquire w data h hl =>
      have hgot := (inv.wpc_ok).1 w data h
      refine ⟨?_, ?_, ⟨?_, ?_, ?_⟩, ?_, ?_, ?_⟩ <;> try dsimp only [wpcOk, rpcOk, lockOk]
      · exact inv.slot_len
      · intro i hi
        by_cases hiw : i = w
        · subst hiw
          rw [Function.update_same] at hi
          exact absurd rfl hi
        · rw [Function.update_noteq hiw] at hi
          exact inv.slot_pub i hi
      · intro w2 d2 heq; exact WriterPC.noConfusion heq
      · intro w2 d2 k2 heq
        cases heq
        exact ⟨hgot.1, hgot.2, Nat.zero_le _, Function.update_same w _ _, rfl⟩
      · intro w2 d2 heq
        rcases heq with heq | heq <;> exact WriterPC.noConfusion heq
      · intro n i acc k hr
        obtain ⟨hlock, hk, hacc⟩ := inv.rpc_ok n i acc k hr
        have hiw : i ≠ w := by
          intro hh
          rw [hh, hl] at hlock
          exact Option.noConfusion hlock
        rw [Function.update_noteq hiw]
        exact ⟨hlock, hk, hacc⟩
      · intro i
        constructor
        · intro hp
          by_cases hiw : i = w
          · subst hiw
            rfl
          · rw [Function.update_noteq hiw] at hp
            have h2 := (inv.lock_ok i).1 hp
            rw [h] at h2
            exact Option.noConfusion h2
        · intro n hn
          by_cases hiw : i = w
          · subst hiw
            rw [Function.update_same] at hn
            exact absurd hn (by simp)
          · rw [Function.update_noteq hiw] at hn
            exact (inv.lock_ok i).2 n hn
      · exact inv.obs_ok
  | w_copy w data k h hk =>
      obtain ⟨hlen2, hpub, hkB, hlockw, htake⟩ := (inv.wpc_ok).2.1 w data k h
      refine ⟨?_, ?_, ⟨?_, ?_, ?_⟩, ?_, ?_, ?_⟩ <;> try dsimp only [wpcOk, rpcOk, lockOk]
      · intro i
        by_cases hiw : i = w
        · subst hiw
          rw [Function.update_same, List.length_set]
          exact inv.slot_len i
        · rw [Function.update_noteq hiw]
          exact inv.slot_len i
      · intro i hi
        by_cases hiw : i = w
        · subst hiw
          exact absurd hlockw hi
        · rw [Function.update_noteq hiw]
          exact inv.slot_pub i hi
      · intro w2 d2 heq; exact WriterPC.noConfusion heq
      · intro w2 d2 k2 heq
        cases heq
        refine ⟨hlen2, hpub, by omega, hlockw, ?_⟩
        rw [Function.update_same]
        have hkslot : k < (s.chan.slots w).length := by
          rw [inv.slot_len w]
          omega
        rw [take_set_succ (s.chan.slots w) k (data.getD k 0) hkslot,
          take_succ_getD data k 0 hk, htake]
      · intro w2 d2 heq
        rcases heq with heq | heq <;> exact WriterPC.noConfusion heq
      · intro n i acc k2 hr
        obtain ⟨hlock, hk2, hacc⟩ := inv.rpc_ok n i acc k2 hr
        have hiw : i ≠ w := by
          intro hh
          rw [hh, hlockw] at hlock
          exact absurd hlock (by simp)
        rw [Function.update_noteq hiw]
        exact ⟨hlock, hk2, hacc⟩
      · intro i
        constructor
        · intro hp
          have h2 := (inv.lock_ok i).1 hp
          rw [h] at h2
          exact h2
        · exact (inv.lock_ok i).2
      · exact inv.obs_ok
  | w_flip w data h =>
      obtain ⟨hlen2, hpub, hkB, hlockw, htake⟩ :=
        (inv.wpc_ok).2.1 w data data.length h
      have hslot : s.chan.slots w = data := by
        have h1 : (s.chan.slots w).take data.length = s.chan.slots w := by
          rw [hlen2, ← inv.slot_len w, List.take_length]
        rw [h1, List.take_length] at htake
        exact htake
      refine ⟨?_, ?_, ⟨?_, ?_, ?_⟩, ?_, ?_, ?_⟩ <;> try dsimp only [wpcOk, rpcOk, lockOk]
      · exact inv.slot_len
      · exact inv.slot_pub
      · intro w2 d2 heq; exact WriterPC.noConfusion heq
      · intro w2 d2 k2 heq; exact WriterPC.noConfusion heq
      · intro w2 d2 heq
        rcases heq with heq | heq
        · cases heq
          exact ⟨hpub, hlockw, hslot⟩
        · exact WriterPC.noConfusion heq
      · exact inv.rpc_ok
      · intro i
        constructor
        · intro hp
          have h2 := (inv.lock_ok i).1 hp
          rw [h] at h2
          exact h2
        · exact (inv.lock_ok i).2
      · exact inv.obs_ok
  | w_bump w data h =>
      obtain ⟨hpub, hlockw, hslot⟩ := (inv.wpc_ok).2.2 w data (Or.inl h)
      refine ⟨?_, ?_, ⟨?_, ?_, ?_⟩, ?_, ?_, ?_⟩ <;> try dsimp only [wpcOk, rpcOk, lockOk]
      · exact inv.slot_len
      · exact inv.slot_pub
      · intro w2 d2 heq; exact WriterPC.noConfusion heq
      · intro w2 d2 k2 heq; exact WriterPC.noConfusion heq
      · intro w2 d2 heq
        rcases heq with heq | heq
        · exact WriterPC.noConfusion heq
        · cases heq
          exact ⟨hpub, hlockw, hslot⟩
      · exact inv.rpc_ok
      · intro i
        constructor
        · intro hp
          have h2 := (inv.lock_ok i).1 hp
          rw [h] at h2
          exact h2
        · exact (inv.lock_ok i).2
      · exact inv.obs_ok
  | w_release w data h =>
      obtain ⟨hpub, hlockw, hslot⟩ := (inv.wpc_ok).2.2 w data (Or.inr h)
      refine ⟨?_, ?_, ⟨?_, ?_, ?_⟩, ?_, ?_, ?_⟩ <;> try dsimp only [wpcOk, rpcOk, lockOk]
      · exact inv.slot_len
      · intro i hi
        by_cases hiw : i = w
        · subst hiw
          right
          rw [hslot]
          exact hpub
        · rw [Function.update_noteq hiw] at hi
          exact inv.slot_pub i hi
      · intro w2 d2 heq; exact WriterPC.noConfusion heq
      · intro w2 d2 k2 heq; exact WriterPC.noConfusion heq
      · intro w2 d2 heq
        rcases heq with heq | heq <;> exact WriterPC.noConfusion heq
      · intro n i acc k hr
        obtain ⟨hlock, hk, hacc⟩ := inv.rpc_ok n i acc k hr
        have hiw : i ≠ w := by
          intro hh
          rw [hh, hlockw] at hlock
          exact absurd hlock (by simp)
        rw [Function.update_noteq hiw]
        exact ⟨hlock, hk, hacc⟩
      · intro i
        constructor
        · intro hp
          by_cases hiw : i = w
          · subst hiw
            rw [Function.update_same] at hp
            exact Option.noConfusion hp
          · rw [Function.update_noteq hiw] at hp
            have h2 := (inv.lock_ok i).1 hp
            rw [h] at h2
            simp only [wpcAt] at h2
            injection h2 with h3
            exact absurd h3.symm hiw
        · intro n hn
          by_cases hiw : i = w
          · subst hiw
            rw [Function.update_same] at hn
            exact Option.noConfusion hn
          · rw [Function.update_noteq hiw] at hn
            exact (inv.lock_ok i).2 n hn
      · exact inv.obs_ok
  | r_start n h =>
      refine ⟨?_, ?_, ?_, ?_, ?_, ?_⟩ <;> try dsimp only [wpcOk, rpcOk, lockOk]
      · exact inv.slot_len
      · exact inv.slot_pub
      · exact inv.wpc_ok
      · intro m i acc k hr
        by_cases hmn : m = n
        · subst hmn
          rw [Function.update_same] at hr
          exact ReaderPC.noConfusion hr
        · rw [Function.update_noteq hmn] at hr
          exact inv.rpc_ok m i acc k hr
      · intro i
        refine ⟨(inv.lock_ok i).1, ?_⟩
        intro m hm
        have h2 := (inv.lock_ok i).2 m hm
        by_cases hmn : m = n
        · subst hmn
          rw [h] at h2
          exact Option.noConfusion h2
        · rw [Function.update_noteq hmn]
          exact h2
      · exact inv.obs_ok
  | r_acquire n i h hl =>
      refine ⟨?_, ?_, ⟨?_, ?_, ?_⟩, ?_, ?_, ?_⟩ <;> try dsimp only [wpcOk, rpcOk, lockOk]
      · exact inv.slot_len
      · intro j hj
        by_cases hji : j = i
        · subst hji
          refine inv.slot_pub j ?_
          rw [hl]
          simp
        · rw [Function.update_noteq hji] at hj
          exact inv.slot_pub j hj
      · exact (inv.wpc_ok).1
      · intro w2 d2 k2 heq
        obtain ⟨h1, h2, h3, h4, h5⟩ := (inv.wpc_ok).2.1 w2 d2 k2 heq
        have hwi : w2 ≠ i := by
          intro hh
          rw [hh, hl] at h4
          exact Option.noConfusion h4
        rw [Function.update_noteq hwi]
        exact ⟨h1, h2, h3, h4, h5⟩
      · intro w2 d2 heq
        obtain ⟨h1, h2, h3⟩ := (inv.wpc_ok).2.2 w2 d2 heq
        have hwi : w2 ≠ i := by
          intro hh
          rw [hh, hl] at h2
          exact Option.noConfusion h2
        rw [Function.update_noteq hwi]
        exact ⟨h1, h2, h3⟩
      · intro m j acc k hr
        by_cases hmn : m = n
        · subst hmn
          rw [Function.update_same] at hr
          cases hr
          exact ⟨Function.update_same i _ _, Nat.zero_le _, rfl⟩
        · rw [Function.update_noteq hmn] at hr
          obtain ⟨hlock, hk, hacc⟩ := inv.rpc_ok m j acc k hr
          have hji : j ≠ i := by
            intro hh
            rw [hh, hl] at hlock
            exact Option.noConfusion hlock
          rw [Function.update_noteq hji]
          exact ⟨hlock, hk, hacc⟩
      · intro j
        constructor
        · intro hp
          by_cases hji : j = i
          · subst hji
            rw [Function.update_same] at hp
            exact absurd hp (by simp)
          · rw [Function.update_noteq hji] at hp
            exact (inv.lock_ok j).1 hp
        · intro m hm
          by_cases hji : j = i
          · subst hji
            rw [Function.update_same] at hm
            injection hm with hm2
            injection hm2 with hm3
            subst hm3
            rw [Function.update_same]
            rfl
          · rw [Function.update_noteq hji] at hm
            have h2 := (inv.lock_ok j).2 m hm
            by_cases hmn : m = n
            · subst hmn
              rw [h] at h2
              exact Option.noConfusion h2
            · rw [Function.update_noteq hmn]
              exact h2
      · exact inv.obs_ok
  | r_copy n i acc k h hk =>
      obtain ⟨hlock, hk2, hacc⟩ := inv.rpc_ok n i acc k h
      refine ⟨?_, ?_, ?_, ?_, ?_, ?_⟩ <;> try dsimp only [wpcOk, rpcOk, lockOk]
      · exact inv.slot_len
      · exact inv.slot_pub
      · exact inv.wpc_ok
      · intro m j acc2 k2 hr
        by_cases hmn : m = n
        · subst hmn
          rw [Function.update_same] at hr
          cases hr
          refine ⟨hlock, by omega, ?_⟩
          rw [take_succ_getD (s.chan.slots i) k 0 hk, hacc]
        · rw [Function.update_noteq hmn] at hr
          exact inv.rpc_ok m j acc2 k2 hr
      · intro j
        refine ⟨(inv.lock_ok j).1, ?_⟩
        intro m hm
        have h2 := (inv.lock_ok j).2 m hm
        by_cases hmn : m = n
        · subst hmn
          rw [h] at h2
          rw [Function.update_same]
          exact h2
        · rw [Function.update_noteq hmn]
          exact h2
      · exact inv.obs_ok
  | r_finish n i acc h =>
      obtain ⟨hlock, hk2, hacc⟩ :=
        inv.rpc_ok n i acc (s.chan.slots i).length h
      have hacc2 : acc = s.chan.slots i := by
        rw [hacc, List.take_length]
      refine ⟨?_, ?_, ⟨?_, ?_, ?_⟩, ?_, ?_, ?_⟩ <;> try dsimp only [wpcOk, rpcOk, lockOk]
      · exact inv.slot_len
      · intro j hj
        by_cases hji : j = i
        · subst hji
          refine inv.slot_pub j ?_
          rw [hlock]
          simp
        · rw [Function.update_noteq hji] at hj
          exact inv.slot_pub j hj
      · exact (inv.wpc_ok).1
      · intro w2 d2 k2 heq
        obtain ⟨h1, h2, h3, h4, h5⟩ := (inv.wpc_ok).2.1 w2 d2 k2 heq
        have hwi : w2 ≠ i := by
          intro hh
          rw [hh, hlock] at h4
          exact absurd h4 (by simp)
        rw [Function.update_noteq hwi]
        exact ⟨h1, h2, h3, h4, h5⟩
      · intro w2 d2 heq
        obtain ⟨h1, h2, h3⟩ := (inv.wpc_ok).2.2 w2 d2 heq
        have hwi : w2 ≠ i := by
          intro hh
          rw [hh, hlock] at h2
          exact absurd h2 (by simp)
        rw [Function.update_noteq hwi]
        exact ⟨h1, h2, h3⟩
      · intro m j acc2 k2 hr
        by_cases hmn : m = n
        · subst hmn
          rw [Function.update_same] at hr
          exact ReaderPC.noConfusion hr
        · rw [Function.update_noteq hmn] at hr
          obtain ⟨hlock2, hk3, hacc3⟩ := inv.rpc_ok m j acc2 k2 hr
          have hji : j ≠ i := by
            intro hh
            rw [hh, hlock] at hlock2
            injection hlock2 with hh2
            injection hh2 with hh3
            exact hmn hh3.symm
          rw [Function.update_noteq hji]
          exact ⟨hlock2, hk3, hacc3⟩
      · intro j
        constructor
        · intro hp
          by_cases hji : j = i
          · subst hji
            rw [Function.update_same] at hp
            exact Option.noConfusion hp
          · rw [Function.update_noteq hji] at hp
            exact (inv.lock_ok j).1 hp
        · intro m hm
          by_cases hji : j = i
          · subst hji
            rw [Function.update_same] at hm
            exact Option.noConfusion hm
          · rw [Function.update_noteq hji] at hm
            have h2 := (inv.lock_ok j).2 m hm
            by_cases hmn : m = n
            · subst hmn
              rw [h] at h2
              simp only [rpcAt] at h2
              injection h2 with h3
              exact absurd h3.symm hji
            · rw [Function.update_noteq hmn]
              exact h2
      · intro v hv
        rcases List.mem_append.1 hv with hv | hv
        · exact inv.obs_ok v hv
        · have hv2 : v = acc := List.mem_singleton.1 hv
          subst hv2
          rw [hacc2]
          refine inv.slot_pub i ?_
          rw [hlock]
          simp

/-- The invariant holds in every reachable state. -/
theorem reachable_inv (s : SysState) (hs : Reachable s) : Inv s := by
  induction hs with
  | refl => exact inv_init
  | tail _ hbc ih => exact step_inv _ _ hbc ih

/-- Claim C1: in every reachable state of the interleaved system, every
    spectrum returned by a completed read is byte-identical to one
    published spectrum (or the initial zero vector) - no torn reads - and
    whenever the producer is about to acquire its slot while every reader
    is outside read (merely holding previous snapshots), the acquisition
    step is immediately enabled, so publish never blocks on a reader
    holding a previous snapshot. -/
theorem no_torn_reads (s : SysState) (hs : Reachable s) :
    (∀ v ∈ s.observed, v = List.replicate BANDS 0 ∨ v ∈ s.published) ∧
    (∀ w data, s.wpc = WriterPC.got_idx w data →
      (∀ n, s.rpc n = ReaderPC.idle ∨ ∃ i, s.rpc n = ReaderPC.got_idx i) →
      Step s { s with
        chan := { s.chan with
          locks := Function.update s.chan.locks w (some Tid.producer) },
        wpc := WriterPC.copying w data 0 }) := by
  have inv := reachable_inv s hs
  refine ⟨inv.obs_ok, ?_⟩
  intro w data hw hr
  have hlw : s.chan.locks w = none := by
    cases hlw : s.chan.locks w with
    | none => rfl
    | some t =>
        cases t with
        | producer =>
            have h2 := (inv.lock_ok w).1 hlw
            rw [hw] at h2
            exact Option.noConfusion h2
        | consumer n =>
            have h2 := (inv.lock_ok w).2 n hlw
            rcases hr n with hn | ⟨i, hn⟩ <;> rw [hn] at h2 <;>
              exact Option.noConfusion h2
  exact Step.w_acquire s w data hw hlw

/-- Witness for claim C1: the initial state is reachable. -/
theorem no_torn_reads_witness :
    (∀ v ∈ SysState.init.observed,
        v = List.replicate BANDS 0 ∨ v ∈ SysState.init.published) ∧
    (∀ w data, SysState.init.wpc = WriterPC.got_idx w data →
      (∀ n, SysState.init.rpc n = ReaderPC.idle ∨
          ∃ i, SysState.init.rpc n = ReaderPC.got_idx i) →
      Step SysState.init { SysState.init with
        chan := { SysState.init.chan with
          locks := Function.update SysState.init.chan.locks w
            (some Tid.producer) },
        wpc := WriterPC.copying w data 0 }) :=
  no_torn_reads SysState.init Relation.ReflTransGen.refl

end MusicViz
